import Mathlib

/-!
Verification of the Symbol Resolver of this repository against its design
document.  The embedding below follows `src/php_class_navigator.py`
(`DynamicClassSearchAndImportCommand`), the revision that builds the
name-resolution index (`build_class_map` / `extract_classes_from_file` /
`is_in_comment_or_string`), translated shallowly:

* file text is `List Char` (Python `str` slicing is by code points);
* a directory tree is the list of its files in `os.walk` visitation order,
  each file carrying the outcome of `open(..).read()` — `Except.error ()`
  models an unreadable file (`IOError` / `UnicodeDecodeError`);
* a Python `dict` is a write log consulted front-first, so a later
  insertion shadows an earlier one exactly as a dict overwrite does;
* a Python function that can raise is `Option` / `Except` valued; `none` /
  `.error ()` is an escaped exception;
* character classes are the ASCII fragments of Python's `\s` and `\w`;
  `splitlines` is modelled with its full set of line-break characters
  (`\n`, `\r`, `\r\n`, `\x0b`, `\x0c`, `\x1c`-`\x1e`, `\x85`, U+2028,
  U+2029).
-/

/-- Characters of Python's `\s` (ASCII fragment). -/
def isPySpace (c : Char) : Bool :=
  c = ' ' || c = '\t' || c = '\n' || c = '\r' || c = '\x0b' || c = '\x0c'

/-- Characters of Python's `\w` (ASCII fragment). -/
def isWordChar (c : Char) : Bool :=
  c.isAlpha || c.isDigit || c = '_'

/-- Text literals are written as strings and converted to `List Char`. -/
def toL (s : String) : List Char :=
  s.toList

/-- Python `str.strip()`: remove leading and trailing whitespace. -/
def pyStrip (l : List Char) : List Char :=
  ((l.dropWhile isPySpace).reverse.dropWhile isPySpace).reverse

/-- Python substring test `pat in s`. -/
def containsSub (pat : List Char) : List Char → Bool
  | [] => pat.isEmpty
  | c :: rest => pat.isPrefixOf (c :: rest) || containsSub pat rest

/-- Line-break characters of Python `str.splitlines`. -/
def isLineBreak (c : Char) : Bool :=
  c = '\n' || c = '\r' || c = '\x0b' || c = '\x0c' ||
  c = '\x1c' || c = '\x1d' || c = '\x1e' || c = '\x85' ||
  c = '\u2028' || c = '\u2029'

/-- Text after the last line-break character of `l`. -/
def afterLastBreak (l : List Char) : List Char :=
  (l.reverse.takeWhile (fun c => !isLineBreak c)).reverse

/-- Removal of one trailing line terminator, the way `splitlines` closes
the final line: a trailing `"\r\n"` counts as a single terminator, any
other trailing break character as one terminator of its own. -/
def dropTrailingTerminator (l : List Char) : List Char :=
  match l.getLast? with
  | none => l
  | some c =>
    if c = '\n' then
      if l.dropLast.getLast? == some '\r' then l.dropLast.dropLast else l.dropLast
    else if isLineBreak c then l.dropLast
    else l

/-- Python `l.splitlines()[-1]` for nonempty `l`: one trailing terminator
is dropped, then the text after the last remaining line break is taken. -/
def pyLastLine (l : List Char) : List Char :=
  afterLastBreak (dropTrailingTerminator l)

/-- Embedding of `is_in_comment_or_string(content, pos)`.  `none` models the
`IndexError` that `preceding.splitlines()[-1]` raises when `preceding` is
empty, which happens exactly when `pos = 0` and the first branch is false. -/
def is_in_comment_or_string (content : List Char) (pos : Nat) : Option Bool :=
  let preceding := content.take pos
  if containsSub (toL "/*") preceding then some true
  else if preceding.isEmpty then none
  else some (containsSub (toL "//") (pyLastLine preceding)
    || preceding.count '"' % 2 != 0
    || preceding.count '\'' % 2 != 0)

/-- Length of the keyword alternative of `(class|interface|trait)` matching
at the head of `l` (the three alternatives start with distinct letters). -/
def kwLen (l : List Char) : Option Nat :=
  if (toL "class").isPrefixOf l then some 5
  else if (toL "interface").isPrefixOf l then some 9
  else if (toL "trait").isPrefixOf l then some 5
  else none

/-- Match of `(class|interface|trait)\s+(\w+)` anchored at the head of `l`:
returns the second capture group and the total match length. -/
def tryMatch (l : List Char) : Option (List Char × Nat) :=
  match kwLen l with
  | none => none
  | some k =>
    let after := l.drop k
    let sp := after.takeWhile isPySpace
    let w := (after.drop sp.length).takeWhile isWordChar
    if sp.isEmpty || w.isEmpty then none
    else some (w, k + sp.length + w.length)

/-- Scanning loop of `re.finditer`: leftmost match wins, matches do not
overlap, scanning resumes right after each match.  The fuel starts at the
text length and each step consumes at least one character, so it never runs
out before the text does. -/
def goFind : Nat → List Char → Nat → List (Nat × List Char)
  | 0, _, _ => []
  | _ + 1, [], _ => []
  | fuel + 1, c :: rest, pos =>
    match tryMatch (c :: rest) with
    | some (w, len) => (pos, w) :: goFind fuel ((c :: rest).drop len) (pos + len)
    | none => goFind fuel rest (pos + 1)

/-- All matches of `(class|interface|trait)\s+(\w+)` in `content`, as
(start offset, captured identifier) pairs. -/
def findIter (content : List Char) : List (Nat × List Char) :=
  goFind content.length content 0

/-- Attempt of `namespace\s+([^;]+);` right after the literal `namespace`:
`rest` is the text following the keyword.  With `k` the offset of the first
`';'`, the regex succeeds iff `rest` starts with whitespace and `k ≥ 2`;
backtracking of the greedy `\s+` against `([^;]+)` puts the group start at
`min (whitespace run) (k - 1)`. -/
def nsMatchAt (rest : List Char) : Option (List Char) :=
  match rest.findIdx? (fun c => c == ';') with
  | none => none
  | some k =>
    match rest with
    | [] => none
    | c0 :: _ =>
      if isPySpace c0 && decide (2 ≤ k) then
        let sp := (rest.takeWhile isPySpace).length
        let s := min sp (k - 1)
        some ((rest.drop s).take (k - s))
      else none

/-- Scanning loop of `re.search(r'namespace\s+([^;]+);', content)`: the
leftmost position where the whole pattern matches wins. -/
def goNs : Nat → List Char → Option (List Char)
  | 0, _ => none
  | _ + 1, [] => none
  | fuel + 1, c :: rest =>
    if (toL "namespace").isPrefixOf (c :: rest) then
      match nsMatchAt ((c :: rest).drop 9) with
      | some g => some g
      | none => goNs fuel rest
    else goNs fuel rest

/-- First match of the namespace pattern anywhere in the text (the pattern
is not anchored), returning the raw capture group. -/
def reSearchNamespace (content : List Char) : Option (List Char) :=
  goNs content.length content

/-- Namespace of a file: `namespace_match.group(1).strip()` of the first
match, or the empty string when there is no match. -/
def nsOf (content : List Char) : List Char :=
  match reSearchNamespace content with
  | some g => pyStrip g
  | none => []

/-- Loop body of `extract_classes_from_file`: keep the capture of every
match that `is_in_comment_or_string` classifies as code; a `none`
classification is the `IndexError` escaping the whole extraction. -/
def filterClasses (content : List Char) : List (Nat × List Char) → Except Unit (List (List Char))
  | [] => .ok []
  | m :: rest =>
    match is_in_comment_or_string content m.1 with
    | none => .error ()
    | some true => filterClasses content rest
    | some false =>
      match filterClasses content rest with
      | .error e => .error e
      | .ok ns => .ok (m.2 :: ns)

/-- Embedding of `extract_classes_from_file`: the argument is the outcome of
`open(file_path).read()`; a read failure propagates (the source has no
try/except around the `open`). -/
def extract_classes_from_file (readResult : Except Unit (List Char)) :
    Except Unit (List (List Char × List Char)) :=
  match readResult with
  | .error e => .error e
  | .ok content =>
    match filterClasses content (findIter content) with
    | .error e => .error e
    | .ok names => .ok (names.map (fun n => (n, nsOf content)))

/-- Fully qualified name: `"%s\\%s" % (namespace, cls_name) if namespace
else cls_name`. -/
def mkFqcn (ns cn : List Char) : List Char :=
  if ns.isEmpty then cn else ns ++ '\\' :: cn

/-- One file of the scanned tree: its path and the outcome of reading it. -/
structure PFile where
  path : List Char
  content : Except Unit (List Char)

/-- Value stored in the index: `(fqcn, full_path)`. -/
abbrev Entry := List Char × List Char

/-- The index, modelled as the write log of the Python dict: the entry in
force for a key is the most recent (frontmost) write. -/
abbrev ClassMap := List (List Char × Entry)

/-- Python `dict.get`: the value most recently written under `k`. -/
def dictGet (m : ClassMap) (k : List Char) : Option Entry :=
  (m.find? (fun e => e.1 == k)).map (fun e => e.2)

/-- The two dict writes made for one extracted class: first
`class_map[cls_name] = (fqcn, path)`, then `class_map[fqcn] = (fqcn, path)`
(the later write ends up closer to the front). -/
def insertPair (path : List Char) (m : ClassMap) (c : List Char × List Char) : ClassMap :=
  ((mkFqcn c.2 c.1, (mkFqcn c.2 c.1, path))) :: ((c.1, (mkFqcn c.2 c.1, path))) :: m

/-- Processing of one visited file inside `build_class_map`: only `.php`
files are opened; an extraction failure aborts the whole scan. -/
def processFile (m : ClassMap) (f : PFile) : Except Unit ClassMap :=
  if (toL ".php").isSuffixOf f.path then
    match extract_classes_from_file f.content with
    | .error e => .error e
    | .ok cs => .ok (cs.foldl (insertPair f.path) m)
  else .ok m

/-- Fold step over the visited files; an already-failed scan stays failed. -/
def scanStep (acc : Except Unit ClassMap) (f : PFile) : Except Unit ClassMap :=
  match acc with
  | .error e => .error e
  | .ok m => processFile m f

/-- Embedding of `build_class_map`: fold over the files of the tree in
visitation order, starting from the empty dict. -/
def build_class_map (files : List PFile) : Except Unit ClassMap :=
  files.foldl scanStep (.ok [])

/-- Embedding of `find_php_class`: build the index, then `dict.get`. -/
def find_php_class (files : List PFile) (name : List Char) : Except Unit (Option Entry) :=
  match build_class_map files with
  | .error e => .error e
  | .ok m => .ok (dictGet m name)

/-- Embedding of the lookup started by `run`: the selection is stripped
(`class_name.strip()`) and forwarded to `find_php_class`. -/
def resolveSelection (files : List PFile) (sel : List Char) : Except Unit (Option Entry) :=
  find_php_class files (pyStrip sel)

/-- Matches of a file that the heuristic classifies as code; only these
contribute records to the index. -/
def acceptedMatches (content : List Char) : List (Nat × List Char) :=
  (findIter content).filter (fun m => is_in_comment_or_string content m.1 == some false)

/-- Specification-side predicate: offset `pos` lies inside a `/* ... */`
block comment, i.e. some `/*` opens before it and no `*/` closes before it. -/
def InsideBlockComment (content : List Char) (pos : Nat) : Prop :=
  ∃ i, i + 2 ≤ pos ∧ (content.drop i).take 2 = toL "/*" ∧
    containsSub (toL "*/") ((content.drop (i + 2)).take (pos - (i + 2))) = false

/-- Specification-side predicate: a `//` occurs before `pos` with no
line-break character between it and `pos`, i.e. the `//` sits earlier on
the same line as `pos`. -/
def AfterLineComment (content : List Char) (pos : Nat) : Prop :=
  ∃ i, i + 2 ≤ pos ∧ (content.drop i).take 2 = toL "//" ∧
    ∀ c ∈ (content.drop i).take (pos - i), isLineBreak c = false

/-- Specification-side predicate: `pos` is preceded by an odd number of
`"` or of `'` characters (the claim's reading of "inside a string"). -/
def InsideOddQuotes (content : List Char) (pos : Nat) : Prop :=
  (content.take pos).count '"' % 2 = 1 ∨ (content.take pos).count '\'' % 2 = 1

/-- Strengthened self-consistency invariant used to carry the induction for
C10: a key differing from its entry's fqcn can only arise from a nonempty
namespace, whose fqcn then contains the separator. -/
def StrongInv (m : ClassMap) : Prop :=
  ∀ k f p, dictGet m k = some (f, p) →
    (∃ q, dictGet m f = some (f, q)) ∧ (k ≠ f → '\\' ∈ f)

theorem containsSub_iff {pat l : List Char} : containsSub pat l = true ↔ pat <:+: l := by
  induction l with
  | nil =>
    simp [containsSub, List.isEmpty_iff, List.infix_nil]
  | cons c rest ih =>
    simp [containsSub, Bool.or_eq_true, List.isPrefixOf_iff_prefix, ih, List.infix_cons_iff]

theorem take_split (content : List Char) {i pos : Nat} (h : i ≤ pos) :
    content.take pos = content.take i ++ (content.drop i).take (pos - i) := by
  conv_lhs => rw [← Nat.add_sub_cancel' h]
  rw [List.take_add]

theorem segment_head2 {content pat : List Char} {i pos : Nat}
    (hpat : (content.drop i).take 2 = pat) (h2 : i + 2 ≤ pos) :
    ∃ tail, (content.drop i).take (pos - i) = pat ++ tail := by
  refine ⟨((content.drop i).take (pos - i)).drop 2, ?_⟩
  conv_lhs => rw [← List.take_append_drop 2 ((content.drop i).take (pos - i))]
  rw [List.take_take]
  have hmin : (2 : Nat) ⊓ (pos - i) = 2 := Nat.min_eq_left (by omega)
  rw [hmin, hpat]

theorem containsSub_of_open {content : List Char} {i pos : Nat}
    (hpat : (content.drop i).take 2 = toL "/*") (h2 : i + 2 ≤ pos) :
    containsSub (toL "/*") (content.take pos) = true := by
  obtain ⟨tail, ht⟩ := segment_head2 hpat h2
  refine containsSub_iff.2 ⟨content.take i, tail, ?_⟩
  rw [take_split content (by omega : i ≤ pos), ht, List.append_assoc]

theorem pyLastLine_suffix {A C : List Char} (hC : C ≠ [])
    (hnl : ∀ c ∈ C, isLineBreak c = false) :
    ∃ T, pyLastLine (A ++ C) = T ++ C := by
  have hlast : (A ++ C).getLast? = C.getLast? := List.getLast?_append_of_ne_nil A hC
  have hcb : isLineBreak (C.getLast hC) = false := hnl _ (List.getLast_mem hC)
  have hnn : C.getLast hC ≠ '\n' := by
    intro h
    rw [h] at hcb
    simp [isLineBreak] at hcb
  have hdrop : dropTrailingTerminator (A ++ C) = A ++ C := by
    unfold dropTrailingTerminator
    rw [hlast, List.getLast?_eq_getLast C hC]
    simp only [if_neg hnn, hcb, Bool.false_eq_true, if_false]
  unfold pyLastLine
  rw [hdrop]
  unfold afterLastBreak
  rw [List.reverse_append, List.takeWhile_append]
  have hall : C.reverse.takeWhile (fun c => !isLineBreak c) = C.reverse :=
    List.takeWhile_eq_self_iff.2 (by
      intro x hx
      simp [hnl x (List.mem_reverse.1 hx)])
  rw [if_pos (by rw [hall])]
  exact ⟨(A.reverse.takeWhile (fun c => !isLineBreak c)).reverse,
    by rw [List.reverse_append, List.reverse_reverse]⟩

theorem containsSub_lastline {content : List Char} {i pos : Nat}
    (hpat : (content.drop i).take 2 = toL "//") (h2 : i + 2 ≤ pos)
    (hnl : ∀ c ∈ (content.drop i).take (pos - i), isLineBreak c = false) :
    containsSub (toL "//") (pyLastLine (content.take pos)) = true := by
  obtain ⟨tail, ht⟩ := segment_head2 hpat h2
  have hC : (content.drop i).take (pos - i) ≠ [] := by
    rw [ht]; simp [toL]
  rw [take_split content (by omega : i ≤ pos)]
  obtain ⟨T, hT⟩ := pyLastLine_suffix hC hnl
  rw [hT, ht]
  exact containsSub_iff.2 ⟨T, tail, by rw [List.append_assoc]⟩

theorem is_in_true_of_spec {content : List Char} {pos : Nat}
    (h : InsideBlockComment content pos ∨ AfterLineComment content pos ∨ InsideOddQuotes content pos) :
    is_in_comment_or_string content pos = some true := by
  by_cases hb : containsSub (toL "/*") (content.take pos) = true
  · simp [is_in_comment_or_string, hb]
  · rcases h with ⟨i, h2, hpat, _⟩ | ⟨i, h2, hpat, hnl⟩ | hq
    · exact absurd (containsSub_of_open hpat h2) hb
    · have hlen : i + 2 ≤ content.length := by
        have hl2 := congrArg List.length hpat
        simp only [List.length_take, List.length_drop, toL] at hl2
        have hmeq : (2 : Nat) ⊓ (content.length - i) = 2 := by
          simpa using hl2
        have hmle := Nat.min_le_right 2 (content.length - i)
        rw [hmeq] at hmle
        omega
      have hne : (content.take pos).isEmpty = false := by
        have hnn : content.take pos ≠ [] := by
          rw [Ne, List.take_eq_nil_iff]
          rintro (h0 | h0)
          · omega
          · rw [h0] at hlen; simp at hlen
        exact Bool.eq_false_iff.2 (fun hh => hnn (List.isEmpty_iff.1 hh))
      have hl := containsSub_lastline hpat h2 hnl
      simp [is_in_comment_or_string, hb, hne, hl]
    · have hmem : (content.take pos) ≠ [] := by
        rcases hq with hq | hq <;>
        · intro h0
          rw [h0] at hq
          simp at hq
      have hne : (content.take pos).isEmpty = false :=
        Bool.eq_false_iff.2 (fun hh => hmem (List.isEmpty_iff.1 hh))
      rcases hq with hq | hq <;> simp [is_in_comment_or_string, hb, hne, hq]

theorem filterClasses_eq_accepted {content : List Char} :
    ∀ {ms : List (Nat × List Char)} {ns : List (List Char)},
      filterClasses content ms = .ok ns →
      ns = (ms.filter (fun m => is_in_comment_or_string content m.1 == some false)).map
        (fun m => m.2) := by
  intro ms
  induction ms with
  | nil =>
    intro ns h
    simp only [filterClasses] at h
    injection h with h
    simp [h.symm]
  | cons m rest ih =>
    intro ns h
    simp only [filterClasses] at h
    cases hcls : is_in_comment_or_string content m.1 with
    | none => rw [hcls] at h; exact absurd h (by simp)
    | some b =>
      rw [hcls] at h
      cases b with
      | true =>
        simp only at h
        rw [List.filter_cons, hcls]
        simp only [show ((some true == some false) = false) from rfl, Bool.false_eq_true, if_false]
        exact ih h
      | false =>
        simp only at h
        cases hrest : filterClasses content rest with
        | error e => rw [hrest] at h; exact absurd h (by simp)
        | ok ns' =>
          rw [hrest] at h
          injection h with h
          rw [List.filter_cons, hcls]
          simp only [show ((some false == some false) = true) from rfl, if_true, List.map_cons]
          rw [← h, ih hrest]

theorem extract_ok_eq {content : List Char} {cs : List (List Char × List Char)}
    (h : extract_classes_from_file (.ok content) = .ok cs) :
    cs = (acceptedMatches content).map (fun m => (m.2, nsOf content)) := by
  simp only [extract_classes_from_file] at h
  cases hf : filterClasses content (findIter content) with
  | error e => rw [hf] at h; exact absurd h (by simp)
  | ok names =>
    rw [hf] at h
    injection h with h
    rw [← h, filterClasses_eq_accepted hf, acceptedMatches, List.map_map]
    rfl

/-- Claim C4: a declaration-keyword match inside a `/* ... */` block
comment, after a `//` earlier on its line, or at a position preceded by an
odd number of `"` or `'` characters is never classified as code, so it is
not among the accepted matches, and the extracted declaration records come
exactly from the accepted matches. -/
theorem C4_comment_and_string_matches_never_indexed (content : List Char) (pos : Nat)
    (name : List Char) (_hmem : (pos, name) ∈ findIter content)
    (hcond : InsideBlockComment content pos ∨ AfterLineComment content pos ∨
      InsideOddQuotes content pos) :
    (pos, name) ∉ acceptedMatches content ∧
    ∀ cs, extract_classes_from_file (.ok content) = .ok cs →
      cs = (acceptedMatches content).map (fun m => (m.2, nsOf content)) := by
  constructor
  · intro hacc
    have hp := (List.mem_filter.1 hacc).2
    rw [is_in_true_of_spec hcond] at hp
    exact absurd hp (by simp)
  · intro cs h
    exact extract_ok_eq h

/-- Witness for C4 at a concrete input: in `x /* class A` the match of
`class A` at offset 5 sits after the `/*` at offset 2 and is dropped. -/
theorem C4_witness :
    ((5, toL "A") ∉ acceptedMatches (toL "x /* class A")) ∧
    ∀ cs, extract_classes_from_file (.ok (toL "x /* class A")) = .ok cs →
      cs = (acceptedMatches (toL "x /* class A")).map
        (fun m => (m.2, nsOf (toL "x /* class A"))) :=
  C4_comment_and_string_matches_never_indexed _ 5 _ (by decide)
    (Or.inl ⟨2, by decide, by decide, by decide⟩)

theorem build_concat (files : List PFile) (f : PFile) :
    build_class_map (files ++ [f]) = scanStep (build_class_map files) f := by
  simp [build_class_map, List.foldl_append]

/-- Counterexample to claim C1 as stated: this tree contains a file with
`namespace Foo\Bar;` followed by `class Baz {}`, yet a later-visited file
also declares `class Baz`, so looking up `Baz` returns a declaration whose
fully qualified name is `Baz`, not `Foo\Bar\Baz`. -/
theorem C1_counterexample :
    find_php_class
      [⟨toL "a.php", .ok (toL "namespace Foo\\Bar;\nclass Baz \x7b\x7d")⟩,
       ⟨toL "b.php", .ok (toL "<?php\nclass Baz")⟩] (toL "Baz") =
      .ok (some (toL "Baz", toL "b.php")) ∧
    toL "Baz" ≠ toL "Foo\\Bar\\Baz" :=
  ⟨rfl, by decide⟩

/-- Claim C1 as amended: when the file with text
`namespace Foo\Bar;\nclass Baz {}` is the last file visited by the scan and
the scan completes, looking up `Baz` and looking up `Foo\Bar\Baz` both
return a declaration with fully qualified name `Foo\Bar\Baz`. -/
theorem C1_lookup_fqcn_of_last_file (pre : List PFile) (p : List Char) (m : ClassMap)
    (hp : (toL ".php").isSuffixOf p = true)
    (hb : build_class_map
      (pre ++ [⟨p, .ok (toL "namespace Foo\\Bar;\nclass Baz \x7b\x7d")⟩]) = .ok m) :
    dictGet m (toL "Baz") = some (toL "Foo\\Bar\\Baz", p) ∧
    dictGet m (toL "Foo\\Bar\\Baz") = some (toL "Foo\\Bar\\Baz", p) := by
  rw [build_concat] at hb
  cases hpre : build_class_map pre with
  | error e =>
    rw [hpre] at hb
    exact absurd hb (by simp [scanStep])
  | ok m0 =>
    rw [hpre] at hb
    have hex : extract_classes_from_file
        (.ok (toL "namespace Foo\\Bar;\nclass Baz \x7b\x7d")) =
        .ok [(toL "Baz", toL "Foo\\Bar")] := rfl
    simp only [scanStep, processFile, hp, if_true, hex] at hb
    injection hb with hb
    rw [← hb]
    exact ⟨rfl, rfl⟩

/-- Witness for C1 on the one-file tree `[a.php]`. -/
theorem C1_witness :
    dictGet [(toL "Foo\\Bar\\Baz", (toL "Foo\\Bar\\Baz", toL "a.php")),
             (toL "Baz", (toL "Foo\\Bar\\Baz", toL "a.php"))] (toL "Baz") =
      some (toL "Foo\\Bar\\Baz", toL "a.php") ∧
    dictGet [(toL "Foo\\Bar\\Baz", (toL "Foo\\Bar\\Baz", toL "a.php")),
             (toL "Baz", (toL "Foo\\Bar\\Baz", toL "a.php"))] (toL "Foo\\Bar\\Baz") =
      some (toL "Foo\\Bar\\Baz", toL "a.php") :=
  C1_lookup_fqcn_of_last_file [] (toL "a.php") _ (by decide) rfl

/-- Claim C6: when two distinct `.php` files both declare `class Foo` with
no namespace and the second is the file visited last, the index resolves
`Foo` to the later file — the later-scanned declaration overwrote the
earlier one, and the earlier file's entry is gone. -/
theorem C6_last_scanned_overwrites (l1 l2 : List PFile) (pA pB : List Char) (m : ClassMap)
    (_hA : (toL ".php").isSuffixOf pA = true)
    (hB : (toL ".php").isSuffixOf pB = true)
    (hne : pA ≠ pB)
    (hb : build_class_map
      ((l1 ++ ⟨pA, .ok (toL "<?php\nclass Foo")⟩ :: l2) ++
        [⟨pB, .ok (toL "<?php\nclass Foo")⟩]) = .ok m) :
    dictGet m (toL "Foo") = some (toL "Foo", pB) ∧
    dictGet m (toL "Foo") ≠ some (toL "Foo", pA) := by
  rw [build_concat] at hb
  cases hpre : build_class_map (l1 ++ ⟨pA, .ok (toL "<?php\nclass Foo")⟩ :: l2) with
  | error e =>
    rw [hpre] at hb
    exact absurd hb (by simp [scanStep])
  | ok m0 =>
    rw [hpre] at hb
    have hex : extract_classes_from_file (.ok (toL "<?php\nclass Foo")) =
        .ok [(toL "Foo", [])] := rfl
    simp only [scanStep, processFile, hB, if_true, hex] at hb
    injection hb with hb
    have h1 : dictGet m (toL "Foo") = some (toL "Foo", pB) := by rw [← hb]; rfl
    refine ⟨h1, ?_⟩
    rw [h1]
    intro hcontra
    injection hcontra with hcontra
    exact hne (congrArg Prod.snd hcontra).symm

/-- Witness for C6 on the concrete tree `[a.php, b.php]`. -/
theorem C6_witness :
    dictGet [(toL "Foo", (toL "Foo", toL "b.php")), (toL "Foo", (toL "Foo", toL "b.php")),
             (toL "Foo", (toL "Foo", toL "a.php")), (toL "Foo", (toL "Foo", toL "a.php"))]
        (toL "Foo") = some (toL "Foo", toL "b.php") ∧
    dictGet [(toL "Foo", (toL "Foo", toL "b.php")), (toL "Foo", (toL "Foo", toL "b.php")),
             (toL "Foo", (toL "Foo", toL "a.php")), (toL "Foo", (toL "Foo", toL "a.php"))]
        (toL "Foo") ≠ some (toL "Foo", toL "a.php") :=
  C6_last_scanned_overwrites [] [] (toL "a.php") (toL "b.php") _ (by decide) (by decide)
    (by decide) rfl

theorem dictGet_cons (a : List Char) (v : Entry) (m : ClassMap) (k : List Char) :
    dictGet ((a, v) :: m) k = if a = k then some v else dictGet m k := by
  unfold dictGet
  rw [List.find?_cons]
  by_cases h : a = k
  · simp [h]
  · rw [show (((a, v).1 == k) = false) from beq_eq_false_iff_ne.2 h]
    simp [h]

theorem tryMatch_word {l w : List Char} {len : Nat} (h : tryMatch l = some (w, len)) :
    ∀ c ∈ w, isWordChar c = true := by
  unfold tryMatch at h
  cases hk : kwLen l with
  | none => rw [hk] at h; exact absurd h (by simp)
  | some k =>
    rw [hk] at h
    simp only at h
    split at h
    · exact absurd h (by simp)
    · injection h with h
      injection h with h1 h2
      intro c hc
      rw [← h1] at hc
      exact List.mem_takeWhile_imp hc

theorem goFind_word :
    ∀ (fuel : Nat) (l : List Char) (pos : Nat) (pr : Nat × List Char),
      pr ∈ goFind fuel l pos → ∀ c ∈ pr.2, isWordChar c = true
  | 0, _, _, _, h => by simp [goFind] at h
  | _ + 1, [], _, _, h => by simp [goFind] at h
  | fuel + 1, a :: rest, pos, pr, h => by
    rw [goFind] at h
    cases htm : tryMatch (a :: rest) with
    | some wl =>
      rw [htm] at h
      rcases List.mem_cons.1 h with h1 | h1
      · rw [h1]
        exact tryMatch_word (by rw [htm])
      · exact goFind_word fuel _ _ pr h1
    | none =>
      rw [htm] at h
      exact goFind_word fuel rest (pos + 1) pr h

theorem extract_no_backslash {content : List Char} {cs : List (List Char × List Char)}
    (h : extract_classes_from_file (.ok content) = .ok cs) :
    ∀ pr ∈ cs, '\\' ∉ pr.1 := by
  intro pr hpr hbs
  rw [extract_ok_eq h] at hpr
  obtain ⟨mm, hmm, hpr⟩ := List.mem_map.1 hpr
  have hmem : mm ∈ findIter content := (List.mem_filter.1 hmm).1
  have := goFind_word content.length content 0 mm hmem '\\' (by rw [← hpr] at hbs; exact hbs)
  simp [isWordChar] at this

theorem mkFqcn_cases (ns cn : List Char) : mkFqcn ns cn = cn ∨ '\\' ∈ mkFqcn ns cn := by
  unfold mkFqcn
  split
  · exact Or.inl rfl
  · exact Or.inr (List.mem_append_right ns (List.mem_cons_self _ _))

theorem strongInv_insertPair {m : ClassMap} {path : List Char} {c : List Char × List Char}
    (hm : StrongInv m) (hc : '\\' ∉ c.1) : StrongInv (insertPair path m c) := by
  intro k f p h
  rw [insertPair, dictGet_cons, dictGet_cons] at h
  by_cases h1 : mkFqcn c.2 c.1 = k
  · rw [if_pos h1] at h
    injection h with h
    injection h with hf hp
    constructor
    · exact ⟨path, by rw [insertPair, dictGet_cons, if_pos hf, hf]⟩
    · intro hk
      exact absurd (h1.symm.trans hf) hk
  · rw [if_neg h1] at h
    by_cases h2 : c.1 = k
    · rw [if_pos h2] at h
      injection h with h
      injection h with hf hp
      constructor
      · exact ⟨path, by rw [insertPair, dictGet_cons, if_pos hf, hf]⟩
      · intro _
        rcases mkFqcn_cases c.2 c.1 with hh | hh
        · exact absurd (hh.trans h2) h1
        · rw [← hf]; exact hh
    · rw [if_neg h2] at h
      obtain ⟨⟨q, hq⟩, himp⟩ := hm k f p h
      constructor
      · by_cases hf1 : mkFqcn c.2 c.1 = f
        · exact ⟨path, by rw [insertPair, dictGet_cons, if_pos hf1, ← hf1]⟩
        · by_cases hf2 : c.1 = f
          · exfalso
            have hnb : '\\' ∉ f := by rw [← hf2]; exact hc
            by_cases hkf : k = f
            · exact h2 (hf2.trans hkf.symm)
            · exact hnb (himp hkf)
          · exact ⟨q, by rw [insertPair, dictGet_cons, dictGet_cons, if_neg hf1, if_neg hf2, hq]⟩
      · exact himp

theorem strongInv_foldl :
    ∀ (cs : List (List Char × List Char)) (m : ClassMap) (path : List Char),
      StrongInv m → (∀ d ∈ cs, '\\' ∉ d.1) →
      StrongInv (cs.foldl (insertPair path) m)
  | [], _, _, hm, _ => hm
  | c :: rest, m, path, hm, hcs => by
    rw [List.foldl_cons]
    exact strongInv_foldl rest _ path
      (strongInv_insertPair hm (hcs c (List.mem_cons_self _ _)))
      (fun d hd => hcs d (List.mem_cons.2 (Or.inr hd)))

theorem strongInv_processFile {m m' : ClassMap} {f : PFile}
    (hm : StrongInv m) (h : processFile m f = .ok m') : StrongInv m' := by
  unfold processFile at h
  split at h
  · cases hcnt : f.content with
    | error e =>
      rw [show extract_classes_from_file f.content = .error e by rw [hcnt]; rfl] at h
      exact absurd h (by simp)
    | ok content =>
      rw [hcnt] at h
      cases hex : extract_classes_from_file (.ok content) with
      | error e => rw [hex] at h; exact absurd h (by simp)
      | ok cs =>
        rw [hex] at h
        injection h with h
        rw [← h]
        exact strongInv_foldl cs m f.path hm (extract_no_backslash hex)
  · injection h with h
    rw [← h]
    exact hm

theorem strongInv_build :
    ∀ (files : List PFile) (acc : Except Unit ClassMap) (m : ClassMap),
      (∀ m0, acc = .ok m0 → StrongInv m0) → files.foldl scanStep acc = .ok m → StrongInv m
  | [], _, m, hacc, h => hacc m h
  | f :: fs, acc, m, hacc, h => by
    rw [List.foldl_cons] at h
    refine strongInv_build fs (scanStep acc f) m ?_ h
    intro m0 h0
    cases acc with
    | error e => simp [scanStep] at h0
    | ok m1 =>
      exact strongInv_processFile (hacc m1 rfl) h0

/-- Claim C10: the index is self-consistent — whenever some key resolves to
the pair `(f, p)`, the fully qualified name `f` is itself a key and the
entry stored under `f` carries `f` as its fully qualified name. -/
theorem C10_index_self_consistent (files : List PFile) (m : ClassMap)
    (hb : build_class_map files = .ok m) :
    ∀ k f p, dictGet m k = some (f, p) → ∃ q, dictGet m f = some (f, q) := by
  intro k f p h
  have hinv : StrongInv m := by
    refine strongInv_build files (.ok []) m ?_ hb
    intro m0 h0
    injection h0 with h0
    rw [← h0]
    intro k' f' p' h'
    simp [dictGet] at h'
  exact (hinv k f p h).1

/-- Witness for C10: in the index of a one-file tree the simple name `B`
resolves to fqcn `N\B`, which is itself a key resolving to itself. -/
theorem C10_witness :
    ∃ q, dictGet [(toL "N\\B", (toL "N\\B", toL "a.php")),
                  (toL "B", (toL "N\\B", toL "a.php"))] (toL "N\\B") =
      some (toL "N\\B", q) :=
  C10_index_self_consistent [⟨toL "a.php", .ok (toL "<?php\nnamespace N;\nclass B")⟩]
    _ rfl (toL "B") (toL "N\\B") (toL "a.php") rfl

/-- Claim C2 against the code: a tree with one unreadable file makes the
scan abort with the read error — the declarations of the readable file are
lost, although scanning the readable file alone indexes `Good`. -/
theorem C2_unreadable_file_aborts_scan :
    build_class_map [⟨toL "bad.php", .error ()⟩,
                     ⟨toL "good.php", .ok (toL "<?php\nclass Good")⟩] = .error () ∧
    build_class_map [⟨toL "good.php", .ok (toL "<?php\nclass Good")⟩] =
      .ok [(toL "Good", (toL "Good", toL "good.php")),
           (toL "Good", (toL "Good", toL "good.php"))] :=
  ⟨rfl, rfl⟩

/-- Claim C3 against the code: on a file whose text starts with the
declaration (`class Foo` at offset 0) the classification raises instead of
returning a boolean, and the whole scan aborts. -/
theorem C3_decl_at_offset_zero_raises :
    is_in_comment_or_string (toL "class Foo") 0 = none ∧
    extract_classes_from_file (.ok (toL "class Foo")) = .error () ∧
    build_class_map [⟨toL "a.php", .ok (toL "class Foo")⟩] = .error () :=
  ⟨rfl, rfl, rfl⟩

/-- Claim C5: the keyword pattern is case-sensitive — `CLASS Foo` and
`Class Foo` yield no entry for `Foo` — while `abstract class Foo` is
indexed like any other class declaration. -/
theorem C5_case_sensitive_and_abstract :
    find_php_class [⟨toL "a.php", .ok (toL "<?php\nCLASS Foo")⟩] (toL "Foo") = .ok none ∧
    find_php_class [⟨toL "a.php", .ok (toL "<?php\nClass Foo")⟩] (toL "Foo") = .ok none ∧
    find_php_class [⟨toL "a.php", .ok (toL "<?php\nabstract class Foo")⟩] (toL "Foo") =
      .ok (some (toL "Foo", toL "a.php")) :=
  ⟨rfl, rfl, rfl⟩

/-- Counterexample to claim C7 as stated: the namespace pattern is not
anchored at statement scope — in `mynamespace X;` the match starting inside
the longer word wins, so the extracted namespace is `X`, not `Real`. -/
theorem C7_not_anchored_counterexample :
    extract_classes_from_file (.ok (toL "mynamespace X;\nnamespace Real;\nclass A")) =
      .ok [(toL "A", toL "X")] ∧
    toL "X" ≠ toL "Real" :=
  ⟨rfl, by decide⟩

/-- Claim C7 as amended: namespace extraction uses only the first match of
the unanchored `namespace\s+([^;]+);` pattern anywhere in the text, with
the captured qualifier trimmed of whitespace; with no match the namespace
is empty, and the fully qualified name is the namespace, `\` and the
simple name, or just the simple name when the namespace is empty. -/
theorem C7_first_match_trimmed_namespace :
    (∀ content cs, extract_classes_from_file (.ok content) = .ok cs →
      ∀ pr ∈ cs, pr.2 = nsOf content) ∧
    extract_classes_from_file (.ok (toL "namespace  N ;\nclass A")) =
      .ok [(toL "A", toL "N")] ∧
    extract_classes_from_file (.ok (toL "namespace A;\nnamespace B;\nclass C")) =
      .ok [(toL "C", toL "A")] ∧
    nsOf (toL "<?php class A") = [] ∧
    mkFqcn [] (toL "A") = toL "A" ∧
    mkFqcn (toL "N") (toL "A") = toL "N\\A" := by
  refine ⟨?_, rfl, rfl, rfl, rfl, rfl⟩
  intro content cs h pr hpr
  rw [extract_ok_eq h] at hpr
  obtain ⟨mm, _, hpr⟩ := List.mem_map.1 hpr
  rw [← hpr]

/-- Witness for C7 at a concrete input. -/
theorem C7_witness :
    ((toL "A", toL "N") : List Char × List Char).2 = nsOf (toL "namespace  N ;\nclass A") :=
  C7_first_match_trimmed_namespace.1 _ _ C7_first_match_trimmed_namespace.2.1 _
    (List.mem_singleton.2 rfl)

/-- Claim C8: resolving a selection strips the selected text and forwards
it to the lookup; in particular the selection `"  Baz  "` behaves exactly
like looking up `"Baz"`. -/
theorem C8_resolveSelection_trims_then_lookup :
    (∀ files sel, resolveSelection files sel = find_php_class files (pyStrip sel)) ∧
    (∀ files, resolveSelection files (toL "  Baz  ") = find_php_class files (toL "Baz")) :=
  ⟨fun _ _ => rfl, fun _ => rfl⟩

/-- Claim C9: the keyword pattern has no word boundary, so the `class`
inside `subclass` is taken for a declaration and `Foo` is indexed although
the file declares nothing. -/
theorem C9_embedded_keyword_creates_entry :
    find_php_class [⟨toL "a.php", .ok (toL "<?php subclass Foo")⟩] (toL "Foo") =
      .ok (some (toL "Foo", toL "a.php")) ∧
    findIter (toL "<?php subclass Foo") = [(9, toL "Foo")] :=
  ⟨rfl, rfl⟩
